import Mathlib

/-!
A verification development for the small interactive shell in
`src/small-shell.c`.  The parser, the status formatter, the redirection
helper, the executor's parent-side control flow, the background reaper and
the SIGTSTP discipline are shallowly embedded as executable Lean functions;
operating-system effects (`open`, `dup2`, `fork`, `waitpid`, signal
delivery) enter as explicit oracle parameters or as events of a small
interleaving semantics.
-/

namespace SmallShell

/-- Decimal text of the shell's own process id, as produced by
`sprintf(buffer, "%ld", getpid())` in `parse`. -/
def pidStr (pid : Nat) : List Char := (toString pid).toList

/-- The `$$`-expansion loop of `parse` (the `for` loop over the raw input):
scanning left to right, whenever the current and next characters are both
`$` the pid text is appended and both characters are consumed; otherwise the
current character is copied.  A lone final `$` sees the NUL terminator as
its successor and is copied verbatim. -/
def expandPid (pid : Nat) : List Char → List Char
  | [] => []
  | [c] => [c]
  | c :: d :: rest =>
    if c = '$' ∧ d = '$' then pidStr pid ++ expandPid pid rest
    else c :: expandPid pid (d :: rest)

/-- The parsed command record, mirroring `struct command`.  `args` keeps the
non-NULL prefix of the C `args` array in order. -/
structure command where
  args : List String
  input_file : Option String
  output_file : Option String
  background : Bool
  deriving DecidableEq

/-- `create_command`: the empty command. -/
def create_command : command :=
  { args := [], input_file := none, output_file := none, background := false }

/-- The delimiter set `" \n"` passed to `strtok_r`. -/
def isDelim (c : Char) : Bool := c == ' ' || c == '\n'

/-- Accumulating worker for the `strtok_r` tokenization: `acc` holds the
characters of the token under construction, in reverse. -/
def tokenizeAux (acc : List Char) : List Char → List String
  | [] => if acc.isEmpty then [] else [String.mk acc.reverse]
  | c :: rest =>
    if isDelim c then
      if acc.isEmpty then tokenizeAux [] rest
      else String.mk acc.reverse :: tokenizeAux [] rest
    else tokenizeAux (c :: acc) rest

/-- Tokenization as performed by the repeated `strtok_r(NULL, " \n", ...)`
calls: split on runs of space and newline, dropping empty tokens. -/
def tokenize (s : List Char) : List String := tokenizeAux [] s

/-- The characters of a list of tokens, concatenated in order. -/
def joinData (ts : List String) : List Char := ts.foldr (fun t r => t.data ++ r) []

/-- The number of `&` characters occurring across a list of tokens. -/
def ampCount (ts : List String) : Nat := (joinData ts).count '&'

/-- The condition under which `parse` treats the line as a background
request: `i = strlen(expanded_input) - 2` is in range and the character
there is `&`. -/
def stripCond (e : List Char) : Bool :=
  decide (2 ≤ e.length) && (e.get? (e.length - 2) == some '&')

/-- The semantic `while` loop of `parse`: `mode` is the C `mode` variable
(`0` argument, `1` input file, `2` output file).  `<` and `>` switch the
mode; any other token is routed according to the current mode.  The mode is
never reset after a filename is consumed. -/
def parseTokensAux (cmd : command) (mode : Nat) : List String → command
  | [] => cmd
  | tok :: rest =>
    if tok = "<" then parseTokensAux cmd 1 rest
    else if tok = ">" then parseTokensAux cmd 2 rest
    else if mode = 0 then
      parseTokensAux { cmd with args := cmd.args ++ [tok] } mode rest
    else if mode = 1 then
      parseTokensAux { cmd with input_file := some tok } mode rest
    else if mode = 2 then
      parseTokensAux { cmd with output_file := some tok } mode rest
    else
      parseTokensAux cmd mode rest

/-- The stage of `parse` after `$$`-expansion.  `background` is the value of
the global `background` flag (true unless foreground-only mode is active).
If the second-to-last character of the expanded buffer is `&`, the command's
background field receives the global flag's value and that character is
overwritten with a space before tokenization. -/
def parseExpanded (background : Bool) (e : List Char) : command :=
  let buf := if stripCond e then e.set (e.length - 2) ' ' else e
  let cmd := { create_command with background := stripCond e && background }
  parseTokensAux cmd 0 (tokenize buf)

/-- `parse`: comment lines (first character `#`, per `strncmp(input, "#", 1)`)
yield the empty command; otherwise the line is pid-expanded, the trailing
background marker handled, and the tokens walked by the semantic loop. -/
def parse (pid : Nat) (background : Bool) (input : List Char) : command :=
  if input.head? = some '#' then create_command
  else parseExpanded background (expandPid pid input)

/-- The banner written when the SIGTSTP handler leaves foreground-only mode. -/
def exitingBanner : String := "\nExiting foreground-only mode\n"

/-- The banner written when the SIGTSTP handler enters foreground-only mode. -/
def enteringBanner : String := "\nEntering foreground-only mode (& is now ignored)\n"

/-- `handle_sigtstp`: toggles the global `background` flag and returns the
banner written to standard output.  The argument and first component are the
global `background` flag (foreground-only mode active exactly when it is
false). -/
def handle_sigtstp (background : Bool) : Bool × String :=
  let b := !background
  (b, if b then exitingBanner else enteringBanner)

/-- `WIFEXITED(status)`: the low seven bits are zero. -/
def wifexited (s : Nat) : Bool := s % 128 == 0

/-- `WEXITSTATUS(status)`: bits 8..15. -/
def wexitstatus (s : Nat) : Nat := (s / 256) % 256

/-- `WTERMSIG(status)`: the low seven bits. -/
def wtermsig (s : Nat) : Nat := s % 128

/-- `WIFSIGNALED(status)`: `((status & 0x7f) + 1) >> 1 > 0`. -/
def wifsignaled (s : Nat) : Bool := 0 < (s % 128 + 1) / 2

/-- `print_status`: the single line printed for a combined wait status. -/
def print_status (s : Nat) : String :=
  if wifexited s then "exit value " ++ toString (wexitstatus s)
  else "terminated by signal " ++ toString (wtermsig s)

/-- Result of the `redirect` helper: its `int` return value, the value of
the `*status` cell after the call, and the lines printed. -/
structure RedirectResult where
  ret : Nat
  status : Nat
  output : List String
  deriving DecidableEq

/-- `redirect`: `openResult` is the descriptor returned by `open` (`none`
models `-1`), `dupOk` the success of `dup2`.  On open failure the diagnostic
is printed, `*status` is set to `1`, and `1` is returned. -/
def redirect (file_name : String) (openResult : Option Nat) (dupOk : Bool)
    (error : String) (status : Nat) : RedirectResult :=
  match openResult with
  | none =>
    { ret := 1, status := 1,
      output := ["bash: " ++ file_name ++ ": No such file or directory"] }
  | some _ =>
    if dupOk then { ret := 0, status := status, output := [] }
    else { ret := 1, status := status, output := ["Error redirecting " ++ error] }

/-- What `run` leaves behind in the shell process: whether the main loop
continues, the `status` cell, the background-pid registry, and the lines the
parent printed. -/
structure RunResult where
  keepRunning : Bool
  status : Nat
  registry : List Nat
  output : List String
  deriving DecidableEq

/-- `run`, as observed from the shell (parent) process.  `forkResult` is the
`fork` outcome seen by the parent (`none` models `-1`); `waitStatus` is what
`waitpid` would store for a foreground child.  The empty command, `cd` and
`status` continue; `exit` stops the loop; an external command forks, and the
parent either registers a background pid or waits and records the child's
status (printing it when the child was signaled). -/
def run (cmd : command) (status : Nat) (registry : List Nat)
    (forkResult : Option Nat) (waitStatus : Nat) : RunResult :=
  match cmd.args.head? with
  | none => { keepRunning := true, status := status, registry := registry, output := [] }
  | some a0 =>
    if a0 = "exit" then
      { keepRunning := false, status := status, registry := registry, output := [] }
    else if a0 = "cd" then
      { keepRunning := true, status := status, registry := registry, output := [] }
    else if a0 = "status" then
      { keepRunning := true, status := status, registry := registry,
        output := [print_status status] }
    else
      match forkResult with
      | none =>
        { keepRunning := true, status := status, registry := registry,
          output := ["Error forking process"] }
      | some pid =>
        if cmd.background then
          { keepRunning := true, status := status, registry := pid :: registry,
            output := ["background pid is " ++ toString pid] }
        else
          { keepRunning := true, status := waitStatus, registry := registry,
            output := if wifsignaled waitStatus then [print_status waitStatus] else [] }

/-- The tail portion of the `check_background` sweep, reached once
`previous` is non-NULL: every remaining node is waited on; a finished node
is printed and spliced out, and traversal continues with its successor.
`wait p` is the `waitpid(p, &status, WNOHANG)` oracle: `none` models result
`0` (still running), `some s` a non-zero result with status `s`.  Returns
(surviving registry, printed (pid, status) pairs in order, pids waited on in
order). -/
def reapTail (wait : Nat → Option Nat) :
    List Nat → List Nat × List (Nat × Nat) × List Nat
  | [] => ([], [], [])
  | p :: rest =>
    let r := reapTail wait rest
    match wait p with
    | some s => (r.1, (p, s) :: r.2.1, p :: r.2.2)
    | none => (p :: r.1, r.2.1, p :: r.2.2)

/-- `check_background`: the full sweep.  The head node is special: when it
is reaped (`previous == NULL` branch), the code sets the cursor to the new
head and then immediately advances past it, so the node that followed a
reaped head is kept but never waited on during this sweep. -/
def check_background (wait : Nat → Option Nat) :
    List Nat → List Nat × List (Nat × Nat) × List Nat
  | [] => ([], [], [])
  | p :: rest =>
    match wait p with
    | none =>
      let r := reapTail wait rest
      (p :: r.1, r.2.1, p :: r.2.2)
    | some s =>
      match rest with
      | [] => ([], [(p, s)], [p])
      | y :: rest2 =>
        let r := reapTail wait rest2
        (y :: r.1, (p, s) :: r.2.1, p :: r.2.2)

/-- Events of the signal-interleaving model for the executor's foreground
path.  `sig` is an asynchronous SIGTSTP delivery from the terminal; the
other events are the shell's own steps in source order: the `fork` launching
the child, the `sigprocmask(SIG_BLOCK, ...)`, the `waitpid`, the recording
of the child's status, and the `sigprocmask(SIG_UNBLOCK, ...)`. -/
inductive Ev where
  | sig : Ev
  | fork : Ev
  | block : Ev
  | wait : Ev
  | record : Ev
  | unblock : Ev
  deriving DecidableEq

/-- Shell-process signal state: the global `background` flag, whether
SIGTSTP is currently blocked, and whether a delivery is pending while
blocked (standard signals coalesce, so a single bit suffices). -/
structure SigSt where
  background : Bool
  blocked : Bool
  pending : Bool
  deriving DecidableEq

/-- One event of the interleaving semantics.  An unblocked delivery runs
`handle_sigtstp` at once; a blocked one is left pending, and the pending
delivery runs when the mask is lifted, as `sigprocmask(SIG_UNBLOCK)`
delivers pending unblocked signals before returning. -/
def evStep (s : SigSt) : Ev → SigSt × List String
  | .sig =>
    if s.blocked then ({ s with pending := true }, [])
    else
      let t := handle_sigtstp s.background
      ({ s with background := t.1 }, [t.2])
  | .block => ({ s with blocked := true }, [])
  | .unblock =>
    if s.pending then
      let t := handle_sigtstp s.background
      ({ background := t.1, blocked := false, pending := false }, [t.2])
    else ({ s with blocked := false }, [])
  | _ => (s, [])

/-- Run a sequence of events, collecting banner output. -/
def runTrace (s : SigSt) : List Ev → SigSt × List String
  | [] => (s, [])
  | e :: t =>
    let r := evStep s e
    let r2 := runTrace r.1 t
    (r2.1, r.2 ++ r2.2)

/-- Spec-side three-state parsing mode of the semantic pass. -/
inductive Mode where
  | arg : Mode
  | expectIn : Mode
  | expectOut : Mode
  deriving DecidableEq

/-- The C `mode` value corresponding to a spec-side mode. -/
def modeNat : Mode → Nat
  | .arg => 0
  | .expectIn => 1
  | .expectOut => 2

/-- Spec-side step of the semantic pass as the claim states it: after a
redirection filename is consumed the mode returns to `arg`. -/
def specClaimedStep (st : command × Mode) (tok : String) : command × Mode :=
  if tok = "<" then (st.1, .expectIn)
  else if tok = ">" then (st.1, .expectOut)
  else
    match st.2 with
    | .arg => ({ st.1 with args := st.1.args ++ [tok] }, .arg)
    | .expectIn => ({ st.1 with input_file := some tok }, .arg)
    | .expectOut => ({ st.1 with output_file := some tok }, .arg)

/-- Semantic pass under the claimed (mode-resetting) step. -/
def specClaimed (toks : List String) : command :=
  (toks.foldl specClaimedStep (create_command, Mode.arg)).1

/-- Spec-side step of the semantic pass as the code behaves: the mode is
sticky, staying `expectIn`/`expectOut` after a filename until another
operator switches it. -/
def specStickyStep (st : command × Mode) (tok : String) : command × Mode :=
  if tok = "<" then (st.1, .expectIn)
  else if tok = ">" then (st.1, .expectOut)
  else
    match st.2 with
    | .arg => ({ st.1 with args := st.1.args ++ [tok] }, .arg)
    | .expectIn => ({ st.1 with input_file := some tok }, .expectIn)
    | .expectOut => ({ st.1 with output_file := some tok }, .expectOut)

/-- Semantic pass under the sticky step. -/
def specSticky (toks : List String) : command :=
  (toks.foldl specStickyStep (create_command, Mode.arg)).1

/-! ## Helper lemmas -/

/-- Every token produced by the tokenizer is the packing of a nonempty
character list: the worker only emits `acc.reverse` under an
`acc.isEmpty = false` guard. -/
theorem mem_tokenizeAux : ∀ (l acc : List Char) (t : String),
    t ∈ tokenizeAux acc l → ∃ cs : List Char, cs ≠ [] ∧ t = String.mk cs := by
  intro l
  induction l with
  | nil =>
    intro acc t ht
    cases hae : acc.isEmpty with
    | true => simp [tokenizeAux, hae] at ht
    | false =>
      simp [tokenizeAux, hae] at ht
      refine ⟨acc.reverse, ?_, ht⟩
      intro hrev
      have : acc = [] := List.reverse_eq_nil_iff.mp hrev
      simp [this] at hae
  | cons c rest ih =>
    intro acc t ht
    cases hd : isDelim c with
    | true =>
      cases hae : acc.isEmpty with
      | true =>
        simp [tokenizeAux, hd, hae] at ht
        exact ih [] t ht
      | false =>
        simp [tokenizeAux, hd, hae] at ht
        rcases ht with ht | ht
        · refine ⟨acc.reverse, ?_, ht⟩
          intro hrev
          have : acc = [] := List.reverse_eq_nil_iff.mp hrev
          simp [this] at hae
        · exact ih [] t ht
    | false =>
      simp only [tokenizeAux, hd] at ht
      simp at ht
      exact ih (c :: acc) t ht

/-- No token of the tokenizer is the empty string. -/
theorem mem_tokenize_ne_empty (s : List Char) (t : String) (ht : t ∈ tokenize s) :
    t ≠ "" := by
  rcases mem_tokenizeAux s [] t ht with ⟨cs, hcs, hteq⟩
  subst hteq
  intro h
  exact hcs (congrArg String.data h)

/-- The semantic loop never touches the background field. -/
theorem parseTokensAux_background : ∀ (toks : List String) (cmd : command) (mode : Nat),
    (parseTokensAux cmd mode toks).background = cmd.background := by
  intro toks
  induction toks with
  | nil => intro cmd mode; rfl
  | cons tok rest ih =>
    intro cmd mode
    simp only [parseTokensAux]
    split_ifs <;> simp [ih]

/-- Every element of the semantic loop's argument list either was already
present or is one of the walked tokens, and in the latter case it is neither
`<` nor `>`. -/
theorem parseTokensAux_mem_args : ∀ (toks : List String) (cmd : command) (mode : Nat)
    (a : String), a ∈ (parseTokensAux cmd mode toks).args →
    a ∈ cmd.args ∨ (a ∈ toks ∧ a ≠ "<" ∧ a ≠ ">") := by
  intro toks
  induction toks with
  | nil => intro cmd mode a ha; exact Or.inl ha
  | cons tok rest ih =>
    intro cmd mode a ha
    simp only [parseTokensAux] at ha
    have lift : a ∈ cmd.args ∨ (a ∈ rest ∧ a ≠ "<" ∧ a ≠ ">") →
        a ∈ cmd.args ∨ (a ∈ tok :: rest ∧ a ≠ "<" ∧ a ≠ ">") := by
      rintro (h | ⟨hm, hne⟩)
      · exact Or.inl h
      · exact Or.inr ⟨List.mem_cons_of_mem _ hm, hne⟩
    by_cases h1 : tok = "<"
    · rw [if_pos h1] at ha
      exact lift (ih _ _ _ ha)
    rw [if_neg h1] at ha
    by_cases h2 : tok = ">"
    · rw [if_pos h2] at ha
      exact lift (ih _ _ _ ha)
    rw [if_neg h2] at ha
    by_cases h3 : mode = 0
    · rw [if_pos h3] at ha
      rcases ih _ _ _ ha with h | ⟨hm, hne⟩
      · rcases List.mem_append.mp h with h' | h'
        · exact Or.inl h'
        · have heq : a = tok := by simpa using h'
          subst heq
          exact Or.inr ⟨List.mem_cons_self _ _, h1, h2⟩
      · exact lift (Or.inr ⟨hm, hne⟩)
    rw [if_neg h3] at ha
    by_cases h4 : mode = 1
    · rw [if_pos h4] at ha
      have h' := ih _ _ _ ha
      exact lift h'
    rw [if_neg h4] at ha
    by_cases h5 : mode = 2
    · rw [if_pos h5] at ha
      have h' := ih _ _ _ ha
      exact lift h'
    · rw [if_neg h5] at ha
      exact lift (ih _ _ _ ha)

/-- While SIGTSTP is blocked, a trace without mask changes leaves the
`background` flag untouched, keeps the mask in place, and emits no banner. -/
theorem runTrace_blocked_aux : ∀ (t : List Ev) (s : SigSt), s.blocked = true →
    (∀ e ∈ t, e ≠ Ev.block ∧ e ≠ Ev.unblock) →
    (runTrace s t).1.background = s.background ∧ (runTrace s t).1.blocked = true ∧
      (runTrace s t).2 = [] := by
  intro t
  induction t with
  | nil => intro s hb _; exact ⟨rfl, hb, rfl⟩
  | cons e t ih =>
    intro s hb hev
    have he := hev e (List.mem_cons_self _ _)
    have hrest : ∀ e ∈ t, e ≠ Ev.block ∧ e ≠ Ev.unblock :=
      fun e hm => hev e (List.mem_cons_of_mem _ hm)
    cases e with
    | sig =>
      have hstep : evStep s Ev.sig = ({ s with pending := true }, []) := by
        simp [evStep, hb]
      simp only [runTrace, hstep]
      have := ih { s with pending := true } (by simpa using hb) hrest
      simpa using this
    | block => exact absurd rfl he.1
    | unblock => exact absurd rfl he.2
    | fork =>
      simp only [runTrace, evStep]
      simpa using ih s hb hrest
    | wait =>
      simp only [runTrace, evStep]
      simpa using ih s hb hrest
    | record =>
      simp only [runTrace, evStep]
      simpa using ih s hb hrest

/-- Unfolding lemma: the characters of a token stream headed by `t`. -/
theorem joinData_cons (t : String) (ts : List String) :
    joinData (t :: ts) = t.data ++ joinData ts := rfl

/-- The empty token stream has no characters. -/
theorem joinData_nil : joinData [] = [] := rfl

/-- The characters of the token stream are exactly the non-delimiter
characters of the buffer, in order (with the pending accumulator in
front). -/
theorem joinData_tokenizeAux : ∀ (l acc : List Char),
    joinData (tokenizeAux acc l) = acc.reverse ++ l.filter (fun c => !isDelim c) := by
  intro l
  induction l with
  | nil =>
    intro acc
    cases hae : acc.isEmpty with
    | true =>
      have : acc = [] := by simpa [List.isEmpty_iff] using hae
      simp [tokenizeAux, hae, this, joinData_nil]
    | false => simp [tokenizeAux, hae, joinData_cons, joinData_nil]
  | cons c rest ih =>
    intro acc
    cases hd : isDelim c with
    | true =>
      cases hae : acc.isEmpty with
      | true =>
        have : acc = [] := by simpa [List.isEmpty_iff] using hae
        simp [tokenizeAux, hd, hae, this, List.filter_cons, ih]
      | false =>
        simp [tokenizeAux, hd, hae, List.filter_cons, joinData_cons, ih []]
    | false =>
      simp [tokenizeAux, hd, List.filter_cons, ih (c :: acc)]

/-- A sublist of a token stream contributes a sublist of its characters. -/
theorem joinData_sublist : ∀ {l toks : List String}, l.Sublist toks →
    (joinData l).Sublist (joinData toks) := by
  intro l toks h
  induction h with
  | slnil => exact List.Sublist.refl _
  | cons t _ ih => exact ih.trans (List.sublist_append_right _ _)
  | cons₂ t _ ih => exact (List.append_sublist_append_left t.data).mpr ih

/-- A token list containing `&` has at least one `&` character. -/
theorem mem_ampCount : ∀ (ts : List String), "&" ∈ ts → 1 ≤ ampCount ts := by
  intro ts h
  induction ts with
  | nil => simp at h
  | cons t rest ih =>
    rcases List.mem_cons.mp h with h | h
    · subst h
      simp [ampCount, joinData, List.count_append]
    · have := ih h
      simp only [ampCount, joinData, List.foldr_cons, List.count_append] at this ⊢
      omega

/-- The semantic loop appends a sublist of the walked tokens to the
argument list. -/
theorem parseTokensAux_args_sublist : ∀ (toks : List String) (cmd : command) (mode : Nat),
    ∃ l, (parseTokensAux cmd mode toks).args = cmd.args ++ l ∧ l.Sublist toks := by
  intro toks
  induction toks with
  | nil => intro cmd mode; exact ⟨[], by simp [parseTokensAux], List.nil_sublist _⟩
  | cons tok rest ih =>
    intro cmd mode
    simp only [parseTokensAux]
    by_cases h1 : tok = "<"
    · rw [if_pos h1]
      rcases ih cmd 1 with ⟨l, hl, hs⟩
      exact ⟨l, hl, hs.cons _⟩
    rw [if_neg h1]
    by_cases h2 : tok = ">"
    · rw [if_pos h2]
      rcases ih cmd 2 with ⟨l, hl, hs⟩
      exact ⟨l, hl, hs.cons _⟩
    rw [if_neg h2]
    by_cases h3 : mode = 0
    · rw [if_pos h3]
      rcases ih { cmd with args := cmd.args ++ [tok] } mode with ⟨l, hl, hs⟩
      refine ⟨tok :: l, ?_, hs.cons₂ _⟩
      simpa using hl
    rw [if_neg h3]
    by_cases h4 : mode = 1
    · rw [if_pos h4]
      rcases ih { cmd with input_file := some tok } mode with ⟨l, hl, hs⟩
      exact ⟨l, hl, hs.cons _⟩
    rw [if_neg h4]
    by_cases h5 : mode = 2
    · rw [if_pos h5]
      rcases ih { cmd with output_file := some tok } mode with ⟨l, hl, hs⟩
      exact ⟨l, hl, hs.cons _⟩
    · rw [if_neg h5]
      rcases ih cmd mode with ⟨l, hl, hs⟩
      exact ⟨l, hl, hs.cons _⟩

/-- Overwriting an `&` position with a space removes exactly one `&` from
the character count. -/
theorem count_set_amp : ∀ (l : List Char) (i : Nat), l.get? i = some '&' →
    (l.set i ' ').count '&' + 1 = l.count '&' := by
  intro l
  induction l with
  | nil => intro i h; simp at h
  | cons c rest ih =>
    intro i h
    cases i with
    | zero =>
      have hc : c = '&' := by simpa using h
      subst hc
      simp [List.count_cons]
    | succ i =>
      have h' : rest.get? i = some '&' := by simpa using h
      have := ih i h'
      simp only [List.set, List.count_cons]
      omega

/-- Filtering out the delimiters does not change the `&` count, since `&`
is not a delimiter. -/
theorem count_filter_amp : ∀ (l : List Char),
    (l.filter (fun c => !isDelim c)).count '&' = l.count '&' := by
  intro l
  induction l with
  | nil => rfl
  | cons c rest ih =>
    by_cases hc : c = '&'
    · subst hc
      simp [List.filter_cons, isDelim, List.count_cons, ih]
    · cases hd : isDelim c <;> simp [List.filter_cons, hd, List.count_cons, hc, ih]

/-! ## Claim theorems -/

/-- C1, amended: the semantic pass is the three-state walk with a sticky
mode — `<` switches to `expectIn`, `>` to `expectOut`, a token in `arg` is
appended to argv, and a token arriving in `expectIn` (resp. `expectOut`)
sets `input_file` (resp. `output_file`) while the mode stays `expectIn`
(resp. `expectOut`), so a token following a redirection filename overwrites
the same field rather than being appended to argv. -/
theorem semantic_pass_sticky : ∀ (toks : List String) (cmd : command) (m : Mode),
    parseTokensAux cmd (modeNat m) toks = (toks.foldl specStickyStep (cmd, m)).1 := by
  intro toks
  induction toks with
  | nil => intro cmd m; rfl
  | cons tok rest ih =>
    intro cmd m
    by_cases h1 : tok = "<"
    · simp only [parseTokensAux, h1, if_pos, List.foldl_cons, specStickyStep, if_true]
      exact ih cmd Mode.expectIn
    by_cases h2 : tok = ">"
    · simp only [parseTokensAux, h1, h2, if_neg, if_pos, List.foldl_cons, specStickyStep,
        if_false, if_true]
      exact ih cmd Mode.expectOut
    cases m with
    | arg =>
      simp only [parseTokensAux, h1, h2, modeNat, if_neg, List.foldl_cons, specStickyStep,
        if_false, if_pos]
      exact ih { cmd with args := cmd.args ++ [tok] } Mode.arg
    | expectIn =>
      simp only [parseTokensAux, h1, h2, modeNat, if_neg, List.foldl_cons, specStickyStep,
        if_false, if_pos]
      exact ih { cmd with input_file := some tok } Mode.expectIn
    | expectOut =>
      simp only [parseTokensAux, h1, h2, modeNat, if_neg, List.foldl_cons, specStickyStep,
        if_false, if_pos]
      exact ih { cmd with output_file := some tok } Mode.expectOut

/-- C1, counterexample to the claim as stated: on the token stream
`cat < a b` the mode-resetting walk the claim describes would append `b` to
argv and leave `input_file = a`, but the code's semantic loop keeps mode
`expectIn`, so `b` overwrites the input file and argv stays `[cat]`. -/
theorem semantic_pass_claimed_cex :
    parseTokensAux create_command 0 ["cat", "<", "a", "b"]
      ≠ specClaimed ["cat", "<", "a", "b"] := by decide

/-- C2, amended: the command's background field is true exactly when the
line is not a comment, the second-to-last character of the expanded buffer
is `&` (the code's trigger, rather than the last non-whitespace token), and
the global flag allows background (foreground-only mode off); when the
trigger fires, that `&` character is overwritten with a space before the
semantic pass; and a `&` that survives to the semantic pass in `arg` mode is
kept as a literal argv token. -/
theorem parse_background_amended : ∀ (pid : Nat) (background : Bool) (input : List Char),
    ((parse pid background input).background
      = (!(input.head? == some '#') && (stripCond (expandPid pid input) && background)))
    ∧ (input.head? ≠ some '#' → stripCond (expandPid pid input) = true →
        parse pid background input
          = parseTokensAux { create_command with background := background } 0
              (tokenize ((expandPid pid input).set ((expandPid pid input).length - 2) ' ')))
    ∧ (∀ (cmd : command) (toks : List String),
        parseTokensAux cmd 0 ("&" :: toks)
          = parseTokensAux { cmd with args := cmd.args ++ ["&"] } 0 toks) := by
  intro pid background input
  refine ⟨?_, ?_, ?_⟩
  · by_cases hc : input.head? = some '#'
    · simp [parse, hc, create_command]
    · simp [parse, hc, parseExpanded, parseTokensAux_background, create_command]
  · intro hc hs
    simp [parse, hc, parseExpanded, hs]
  · intro cmd toks
    simp only [parseTokensAux]
    rw [if_neg (by decide), if_neg (by decide)]
    simp

/-- C2, witness: on the line `ls &` followed by a newline the strip
condition fires, the command is parsed from the blanked buffer, and
background is true. -/
theorem parse_background_amended_witness :
    parse 9 true ("ls &\n".toList)
      = parseTokensAux { create_command with background := true } 0
          (tokenize ((expandPid 9 ("ls &\n".toList)).set
            ((expandPid 9 ("ls &\n".toList)).length - 2) ' '))
    ∧ (parse 9 true ("ls &\n".toList)).background = true :=
  ⟨(parse_background_amended 9 true ("ls &\n".toList)).2.1 (by decide) (by decide),
   ((parse_background_amended 9 true ("ls &\n".toList)).1).trans (by decide)⟩

/-- C2, counterexample to the claim as stated: on `ls & ` (trailing space
before the newline) the final non-whitespace token is a bare `&`, yet the
code leaves background false and keeps `&` in argv, because the trigger is
the second-to-last character of the buffer, which here is the space. -/
theorem parse_background_cex :
    (parse 42 true ("ls & \n".toList)).background = false
    ∧ (parse 42 true ("ls & \n".toList)).args = ["ls", "&"] := by decide

/-- C3, amended: a line whose first character is `#` yields the empty
command plan — empty argv, no redirections, background false — regardless
of the rest of the line. -/
theorem parse_comment_amended : ∀ (pid : Nat) (background : Bool) (rest : List Char),
    parse pid background ('#' :: rest) = create_command
    ∧ (parse pid background ('#' :: rest)).args = []
    ∧ (parse pid background ('#' :: rest)).input_file = none
    ∧ (parse pid background ('#' :: rest)).output_file = none
    ∧ (parse pid background ('#' :: rest)).background = false := by
  intro pid background rest
  have h : parse pid background ('#' :: rest) = create_command := by simp [parse]
  exact ⟨h, by rw [h]; rfl, by rw [h]; rfl, by rw [h]; rfl, by rw [h]; rfl⟩

/-- C3, counterexample to the claim as stated: the comment check is
`strncmp(input, "#", 1)` on the raw buffer, so ` #x` — whose first
non-whitespace character is `#` — is not treated as a comment: its argv is
`[#x]`, not empty. -/
theorem parse_comment_cex :
    (parse 42 true (" #x\n".toList)).args = ["#x"]
    ∧ (parse 42 true (" #x\n".toList)).args ≠ [] := by decide

/-- C4: with registry `[7, 8]` and both children already exited (the
non-blocking wait returns non-zero with status 0 for every pid), the sweep
waits only on pid 7, prints and removes it, and never performs a wait for
pid 8 in this sweep — the cursor advances past the node that followed the
removed head — contradicting the claim (and the function's own comment)
that each identifier currently in the registry is waited on. -/
theorem check_background_skips_after_head :
    check_background (fun _ => some 0) [7, 8] = ([8], [(7, 0)], [7]) := by decide

/-- C5, amended: on open failure `redirect` prints the
`bash: <path>: No such file or directory` diagnostic, sets the status cell
to `1` and returns `1`; but `1` is a value the status formatter renders as
`terminated by signal 1`, not `exit value 1` (the observable `exit value 1`
comes from the child's `exit(1)`, not from this assignment). -/
theorem redirect_open_failure : ∀ (file_name error : String) (dupOk : Bool) (status : Nat),
    redirect file_name none dupOk error status
      = { ret := 1, status := 1,
          output := ["bash: " ++ file_name ++ ": No such file or directory"] }
    ∧ print_status 1 = "terminated by signal 1" := by
  intro file_name error dupOk status
  exact ⟨rfl, by decide⟩

/-- C5, counterexample to the claim as stated: the status value `1` stored
by a failed `redirect` is printed by the status formatter as
`terminated by signal 1`, because `WIFEXITED(1)` is false; it is not a
value that prints as `exit value 1`. -/
theorem redirect_status_cex :
    (redirect "missing.txt" none true "input" 0).status = 1
    ∧ print_status ((redirect "missing.txt" none true "input" 0).status)
        = "terminated by signal 1"
    ∧ print_status ((redirect "missing.txt" none true "input" 0).status)
        ≠ "exit value 1" := by decide

/-- C6: the expansion pass of the parser replaces every literal
two-character `$$` by the decimal pid, performs no other substitution
(dollar-free text is copied verbatim), preserves a single `$` not followed
by `$`, and is applied by `parse` to every line not treated as a comment. -/
theorem expansion_spec : ∀ (pid : Nat),
    (∀ l : List Char, '$' ∉ l → expandPid pid l = l)
    ∧ (∀ l : List Char, expandPid pid ('$' :: '$' :: l) = pidStr pid ++ expandPid pid l)
    ∧ (∀ (c : Char) (l : List Char), (c = '$' → l.head? ≠ some '$') →
        expandPid pid (c :: l) = c :: expandPid pid l)
    ∧ (∀ (background : Bool) (input : List Char), input.head? ≠ some '#' →
        parse pid background input = parseExpanded background (expandPid pid input)) := by
  intro pid
  refine ⟨?_, ?_, ?_, ?_⟩
  · intro l
    induction l with
    | nil => intro _; rfl
    | cons c rest ih =>
      intro h
      cases rest with
      | nil => rfl
      | cons d rest2 =>
        have hc : ¬(c = '$' ∧ d = '$') := by
          intro hcd
          exact h (by simp [hcd.1])
        simp only [expandPid, if_neg hc]
        exact congrArg (c :: ·) (ih (fun hm => h (List.mem_cons_of_mem _ hm)))
  · intro l
    simp [expandPid]
  · intro c l h
    cases l with
    | nil => rfl
    | cons d l2 =>
      have hcd : ¬(c = '$' ∧ d = '$') := fun hcd => h hcd.1 (by simp [hcd.2])
      simp only [expandPid, if_neg hcd]
  · intro background input h
    simp [parse, h]

/-- C6, witness: dollar-free text is copied, a leading `$$` becomes the pid
text, a non-dollar head is copied, and a non-comment line goes through the
expansion stage. -/
theorem expansion_spec_witness :
    expandPid 7 ("a b".toList) = "a b".toList
    ∧ expandPid 7 ('$' :: '$' :: "x".toList) = pidStr 7 ++ expandPid 7 ("x".toList)
    ∧ expandPid 7 ('a' :: "$b".toList) = 'a' :: expandPid 7 ("$b".toList)
    ∧ parse 7 true ("x\n".toList) = parseExpanded true (expandPid 7 ("x\n".toList)) :=
  ⟨(expansion_spec 7).1 _ (by decide),
   (expansion_spec 7).2.1 _,
   (expansion_spec 7).2.2.1 'a' _ (by decide),
   (expansion_spec 7).2.2.2 true _ (by decide)⟩

/-- C7: every element of the argv produced by `parse` is a nonempty string
different from `<` and from `>`; and the `&` stripped as the trailing
background marker never reaches argv: whenever the strip fires on a
non-comment line, the `&` characters across argv account for strictly fewer
occurrences than the expanded line held (the stripped occurrence is
missing), so in particular when the trailing marker is the line's only `&`,
no argv element equals `&` at all. -/
theorem parse_args_invariant : ∀ (pid : Nat) (background : Bool) (input : List Char),
    (∀ a ∈ (parse pid background input).args, a ≠ "" ∧ a ≠ "<" ∧ a ≠ ">")
    ∧ (input.head? ≠ some '#' → stripCond (expandPid pid input) = true →
        ampCount (parse pid background input).args + 1 ≤ (expandPid pid input).count '&')
    ∧ (input.head? ≠ some '#' → stripCond (expandPid pid input) = true →
        (expandPid pid input).count '&' = 1 →
        "&" ∉ (parse pid background input).args) := by
  intro pid background input
  have part1 : ∀ a ∈ (parse pid background input).args, a ≠ "" ∧ a ≠ "<" ∧ a ≠ ">" := by
    intro a ha
    by_cases hc : input.head? = some '#'
    · simp [parse, hc, create_command] at ha
    · simp only [parse, hc, if_neg, if_false, parseExpanded] at ha
      rcases parseTokensAux_mem_args _ _ _ _ ha with h | ⟨hm, hne⟩
      · simp [create_command] at h
      · exact ⟨mem_tokenize_ne_empty _ _ hm, hne⟩
  have part2 : input.head? ≠ some '#' → stripCond (expandPid pid input) = true →
      ampCount (parse pid background input).args + 1
        ≤ (expandPid pid input).count '&' := by
    intro hc hs
    obtain ⟨hlen, hget⟩ : 2 ≤ (expandPid pid input).length ∧
        (expandPid pid input).get? ((expandPid pid input).length - 2) = some '&' := by
      simpa [stripCond] using hs
    have hargs : (parse pid background input).args
        = (parseTokensAux
            { create_command with
              background := stripCond (expandPid pid input) && background } 0
            (tokenize ((expandPid pid input).set
              ((expandPid pid input).length - 2) ' '))).args := by
      simp [parse, hc, parseExpanded, hs]
    rcases parseTokensAux_args_sublist
        (tokenize ((expandPid pid input).set ((expandPid pid input).length - 2) ' '))
        { create_command with background := stripCond (expandPid pid input) && background }
        0 with ⟨l, hl, hsub⟩
    have hle : ampCount l ≤ ampCount (tokenize ((expandPid pid input).set
        ((expandPid pid input).length - 2) ' ')) := by
      simpa [ampCount] using (joinData_sublist hsub).count_le '&'
    have hjoin : ampCount (tokenize ((expandPid pid input).set
          ((expandPid pid input).length - 2) ' '))
        = ((expandPid pid input).set ((expandPid pid input).length - 2) ' ').count '&' := by
      simp [ampCount, tokenize, joinData_tokenizeAux, count_filter_amp]
    have hset := count_set_amp (expandPid pid input)
      ((expandPid pid input).length - 2) hget
    have hargs' : ampCount (parse pid background input).args = ampCount l := by
      rw [hargs, hl]
      simp [create_command]
    omega
  refine ⟨part1, part2, ?_⟩
  intro hc hs h1 hmem
  have h2 := part2 hc hs
  rw [h1] at h2
  have h3 := mem_ampCount _ hmem
  omega

/-- C7, witness: the element invariant evaluated on the parse of `ls`, and
the stripped-marker conjuncts evaluated on `ls &` followed by a newline,
whose only `&` is the stripped trailing marker: argv accounts for none of
the line's `&` occurrences and contains no `&` element. -/
theorem parse_args_invariant_witness :
    (("ls" : String) ≠ "" ∧ ("ls" : String) ≠ "<" ∧ ("ls" : String) ≠ ">")
    ∧ ampCount (parse 1 true ("ls &\n".toList)).args + 1
        ≤ (expandPid 1 ("ls &\n".toList)).count '&'
    ∧ "&" ∉ (parse 1 true ("ls &\n".toList)).args :=
  ⟨(parse_args_invariant 1 true ("ls\n".toList)).1 "ls" (by decide),
   (parse_args_invariant 1 true ("ls &\n".toList)).2.1 (by decide) (by decide),
   (parse_args_invariant 1 true ("ls &\n".toList)).2.2 (by decide) (by decide) (by decide)⟩

/-- C8, amended: while SIGTSTP is blocked — from the `sigprocmask` block
just before the foreground wait until the unblock after it — deliveries are
deferred: any interleaving of deliveries with the wait and the status
recording leaves the `background` flag unchanged and emits no banner.  (The
claim's wider span fails: between the fork and the block a delivery still
toggles immediately; see the counterexample.) -/
theorem executor_wait_blocks_sigtstp : ∀ (t : List Ev) (s : SigSt), s.blocked = true →
    (∀ e ∈ t, e ≠ Ev.block ∧ e ≠ Ev.unblock) →
    (runTrace s t).1.background = s.background ∧ (runTrace s t).2 = [] := by
  intro t s hb hev
  exact ⟨(runTrace_blocked_aux t s hb hev).1, (runTrace_blocked_aux t s hb hev).2.2⟩

/-- C8, witness: with the mask in place, SIGTSTP deliveries interleaved
with the wait and the status recording neither change the flag nor print. -/
theorem executor_wait_blocks_sigtstp_witness :
    (runTrace ⟨true, true, false⟩ [Ev.sig, Ev.wait, Ev.sig, Ev.record]).1.background = true
    ∧ (runTrace ⟨true, true, false⟩ [Ev.sig, Ev.wait, Ev.sig, Ev.record]).2 = [] :=
  executor_wait_blocks_sigtstp [Ev.sig, Ev.wait, Ev.sig, Ev.record]
    ⟨true, true, false⟩ rfl (by decide)

/-- C8, counterexample to the claim as stated: the block is installed only
after the fork, so a delivery between the launch of the foreground child
and the block toggles the flag and prints the banner before the child's
status is recorded, even though SIGTSTP is blocked before the wait and
unblocked after it. -/
theorem sigtstp_fork_window_cex :
    ((runTrace ⟨true, false, false⟩ [Ev.fork, Ev.sig, Ev.block, Ev.wait, Ev.record]).1.background
        ≠ (⟨true, false, false⟩ : SigSt).background)
    ∧ (runTrace ⟨true, false, false⟩
        [Ev.fork, Ev.sig, Ev.block, Ev.wait, Ev.record, Ev.unblock]).2
      = [enteringBanner] := by decide

/-- C9: delivering SIGTSTP twice returns the global flag to its prior
value; the toggle that sets the foreground-only flag (making `background`
false) emits the entering banner and the toggle that clears it emits the
exiting banner, in that order from either starting state. -/
theorem sigtstp_double_toggle : ∀ b : Bool,
    (handle_sigtstp (handle_sigtstp b).1).1 = b
    ∧ (handle_sigtstp b).2 = (if b then enteringBanner else exitingBanner)
    ∧ (handle_sigtstp (handle_sigtstp b).1).2
      = (if b then exitingBanner else enteringBanner) := by decide

/-- C10: `run` tells the main loop to stop exactly when argv is non-empty
and its first element is `exit`; the empty plan, `cd`, `status`, fork
failure, and external commands in foreground or background all continue. -/
theorem run_stop_iff : ∀ (cmd : command) (status : Nat) (registry : List Nat)
    (forkResult : Option Nat) (waitStatus : Nat),
    (run cmd status registry forkResult waitStatus).keepRunning = false
      ↔ cmd.args.head? = some "exit" := by
  intro cmd status registry forkResult waitStatus
  unfold run
  cases h : cmd.args.head? with
  | none => simp
  | some a0 =>
    by_cases h1 : a0 = "exit"
    · simp [h1]
    by_cases h2 : a0 = "cd"
    · simp [h1, h2]
    by_cases h3 : a0 = "status"
    · simp [h1, h2, h3]
    simp only [h1, h2, h3, if_false]
    cases forkResult with
    | none => simp [h1]
    | some pid =>
      by_cases hbg : cmd.background <;> simp [h1, hbg]

end SmallShell
